import Mathlib

/-!
# Verification of `maxweight.hh`

A shallow embedding of the calorie-constrained weight-maximization code
(`maxweight.hh`): the `FoodItem` data model, the CSV loader
`load_food_database`, the filter `filter_food_vector`, the dynamic-programming
solver `dynamic_max_weight` and the exhaustive solver `exhaustive_max_weight`.

C++ `double` values are modelled as exact rationals (ℚ); C++ `int` as ℤ.
Fallible behaviour (a thrown `std::length_error`, an out-of-bounds
`std::vector` access, a failed `assert`) is modelled with `Option` /
an explicit result type.
-/

-- Batteries marks the arithmetic on ℚ irreducible, which blocks `decide` on
-- concrete rational computations; restore the definitional behaviour locally.
attribute [local semireducible] Rat.add Rat.mul Rat.sub Rat.inv Rat.ofScientific

/-- C++ `static_cast<int>(x)` for a floating-point `x`: truncation toward
zero (floor for non-negative values, ceiling for negative ones). -/
def truncQ (x : ℚ) : ℤ := if 0 ≤ x then ⌊x⌋ else ⌈x⌉

/-- One food item (`class FoodItem`).  The C++ constructor asserts
`!description.empty()` and `calories > 0`; catalogs produced by the loader
only contain items satisfying those invariants. -/
structure FoodItem where
  description : String
  calories : ℚ
  weight : ℚ
deriving DecidableEq

/-- Calorie component of `sum_food_vector`. -/
def calSum (foods : List FoodItem) : ℚ := (foods.map FoodItem.calories).sum

/-- Weight component of `sum_food_vector`. -/
def weightSum (foods : List FoodItem) : ℚ := (foods.map FoodItem.weight).sum

/-- The field-splitting loop of `load_food_database`:
`for (std::string field; std::getline(ss, field, '^');)`.
`std::getline` with delimiter `^` yields one field per delimiter-terminated
chunk; a trailing delimiter does not produce a trailing empty field, because
the final `getline` call extracts no characters and fails. -/
def splitCarets : List Char → List Char → List String
  | [], acc => [String.mk acc]
  | c :: rest, acc =>
    if c = '^' then
      String.mk acc :: (if rest.isEmpty then [] else splitCarets rest [])
    else splitCarets rest (acc ++ [c])

/-- Fields of one line, as produced by the `getline(ss, field, '^')` loop.
On an empty line the first `getline` call extracts nothing and fails, so
there are no fields at all. -/
def getlineFields (line : String) : List String :=
  if line = "" then [] else splitCarets line.toList []

/-- Value of a digit string (most significant digit first). -/
def digitsVal (ds : List Char) : ℕ := ds.foldl (fun a c => 10 * a + (c.toNat - 48)) 0

/-- Models `ss >> output` for a `double`: skip leading whitespace, then read
an optional sign and a decimal literal (digits, optionally with a fractional
part).  Returns `none` when no digits can be read (extraction failure);
trailing garbage after the parsed prefix is ignored, as `operator>>` ignores
it.  (Exponents, hex floats and inf/nan are not modelled; no input in this
development uses them.) -/
def parseDouble (s : String) : Option ℚ :=
  let cs := s.toList.dropWhile (fun c => c = ' ' ∨ c = '\t')
  let signAndRest : ℚ × List Char :=
    match cs with
    | '-' :: rest => (-1, rest)
    | '+' :: rest => (1, rest)
    | _ => (1, cs)
  let sign := signAndRest.1
  let cs1 := signAndRest.2
  let intPart := cs1.takeWhile Char.isDigit
  let afterInt := cs1.dropWhile Char.isDigit
  let fracPart : List Char :=
    match afterInt with
    | '.' :: r => r.takeWhile Char.isDigit
    | _ => []
  if intPart = [] ∧ fracPart = [] then none
  else some (sign * ((digitsVal intPart : ℚ) + (digitsVal fracPart : ℚ) / 10 ^ fracPart.length))

/-- The `parse_dbl` lambda of `load_food_database`.  Note the C++ code only
checks `if (!ss)` on a freshly-constructed stringstream, which never fails,
and never checks the result of `ss >> output`; so the function always
reports success, and on extraction failure the output double is set to `0`
(C++11 semantics of a failed arithmetic extraction). -/
def parse_dbl (field : String) : Bool × ℚ :=
  (true, (parseDouble field).getD 0)

/-- The `FoodItem` constructor.  `assert(!description.empty())` and
`assert(calories > 0)`: a violated assertion aborts the process, modelled as
`none`. -/
def mkFoodItem (description : String) (calories weight_ounces : ℚ) : Option FoodItem :=
  if description ≠ "" ∧ 0 < calories then
    some ⟨description, calories, weight_ounces⟩
  else
    none

/-- Outcome of `load_food_database` on an already-opened input (the
I/O-failure case, an unopenable file, is outside this model): either the
loaded catalog, the `nullptr` failure return (wrong field count), or an
aborted `assert` inside the `FoodItem` constructor. -/
inductive LoadResult where
  | ok (catalog : List FoodItem)
  | failure
  | assertAbort
deriving DecidableEq

/-- The per-line loop of `load_food_database`, over the data lines (the
header line has already been discarded). -/
def loadLines : List String → List FoodItem → LoadResult
  | [], acc => .ok acc
  | line :: rest, acc =>
    match getlineFields line with
    | [descr_field, calories_field, weight_ounces_field] =>
      let pc := parse_dbl calories_field
      let pw := parse_dbl weight_ounces_field
      if pc.1 && pw.1 then
        match mkFoodItem descr_field pc.2 pw.2 with
        | some item => loadLines rest (acc ++ [item])
        | none => .assertAbort
      else loadLines rest acc
    | _ => .failure

/-- `load_food_database`, with the input file given as its list of lines.
The first line is a header and is always skipped. -/
def load_food_database (lines : List String) : LoadResult :=
  match lines with
  | [] => .ok []
  | _header :: rest => loadLines rest []

/-- A data line the loader turns into an item: exactly 3 fields and the
constructed `FoodItem` passes its assertions. -/
def validLine (line : String) : Bool :=
  match getlineFields line with
  | [d, c, w] => ((mkFoodItem d (parse_dbl c).2 (parse_dbl w).2).isSome : Bool)
  | _ => false

/-- The weight-range test of `filter_food_vector`. -/
def inRange (min_weight max_weight : ℚ) (item : FoodItem) : Bool :=
  decide (min_weight ≤ item.weight ∧ item.weight ≤ max_weight)

/-- The loop of `filter_food_vector`; `limit` is
`static_cast<size_t>(total_size)`.  The size test runs only after an item
has been appended, so a `limit` of `0` is never reached. -/
def filterLoop (min_weight max_weight : ℚ) (limit : ℕ) :
    List FoodItem → List FoodItem → List FoodItem
  | [], result => result
  | item :: rest, result =>
    if min_weight ≤ item.weight ∧ item.weight ≤ max_weight then
      let result1 := result ++ [item]
      if result1.length = limit then result1
      else filterLoop min_weight max_weight limit rest result1
    else filterLoop min_weight max_weight limit rest result

/-- `filter_food_vector`.  `total_size` is a C++ `int`; its conversion to
`size_t` is value mod 2^64 (a negative `total_size` becomes huge). -/
def filter_food_vector (source : List FoodItem) (min_weight max_weight : ℚ)
    (total_size : ℤ) : List FoodItem :=
  filterLoop min_weight max_weight ((total_size % (2 : ℤ) ^ 64).toNat) source []

/-- The DP table of `dynamic_max_weight`: `dp[i][w]` = best weight using the
first `i` items at integer capacity `w`.  Row `0` is the all-zero
initialization.  The C++ table only materializes `0 ≤ w ≤ C`; under the
`FoodItem` invariant (`calories > 0`) every index the fill loop reads lies
in that range, so the mathematical extension below agrees with the table at
every cell the program touches.  `w - foods[i-1]->calorie()` is a `double`
converted to `size_t`, i.e. (being non-negative in that branch) its floor. -/
def dp (foods : List FoodItem) : ℕ → ℤ → ℚ
  | 0, _ => 0
  | i + 1, w =>
    match foods[i]? with
    | none => dp foods i w
    | some f =>
      if (w : ℚ) < f.calories then dp foods i w
      else
        let weight_if_taken := dp foods i ⌊(w : ℚ) - f.calories⌋ + f.weight
        if dp foods i w < weight_if_taken then weight_if_taken
        else dp foods i w

/-- The `take` table of `dynamic_max_weight`: `take[i][w]` is set exactly
when row `i` strictly improves on row `i-1` at capacity `w`. -/
def take (foods : List FoodItem) : ℕ → ℤ → Bool
  | 0, _ => false
  | i + 1, w =>
    match foods[i]? with
    | none => false
    | some f =>
      if (w : ℚ) < f.calories then false
      else decide (dp foods i w < dp foods i ⌊(w : ℚ) - f.calories⌋ + f.weight)

/-- The reconstruction loop of `dynamic_max_weight` (`for i = n down to 1`).
Each taken item is inserted at the *front* of the result
(`result->insert(result->begin(), ...)`).  Reading `take[i][r]` with `r`
outside `[0, C]` is an out-of-bounds `std::vector` access (UB), modelled as
`none`.  `calorie_remaining -= foods[i-1]->calorie()` is `int -= double`:
the difference is truncated toward zero. -/
def reconstruct (foods : List FoodItem) (C : ℤ) : ℕ → ℤ → Option (List FoodItem)
  | 0, _ => some []
  | i + 1, calorie_remaining =>
    if calorie_remaining < 0 ∨ C < calorie_remaining then none
    else
      match foods[i]? with
      | none => none
      | some f =>
        if take foods (i + 1) calorie_remaining then
          (reconstruct foods C i (truncQ ((calorie_remaining : ℚ) - f.calories))).map
            (fun rest => rest ++ [f])
        else
          reconstruct foods C i calorie_remaining

/-- `dynamic_max_weight`.  `total_calories = static_cast<int>(input)` is
truncation toward zero.  When `total_calories + 1 < 0` the table columns are
constructed with a negative count, i.e. a huge `size_t`: `std::vector`
throws, modelled as `none`. -/
def dynamic_max_weight (foods : List FoodItem) (total_calories_input : ℚ) :
    Option (List FoodItem) :=
  let total_calories : ℤ := truncQ total_calories_input
  if total_calories + 1 < 0 then none
  else reconstruct foods total_calories foods.length total_calories

/-- The subset of mask `i`: item `j` is included iff bit `j` of `i` is set,
in increasing `j` order — exactly the inner `for (j...)` loop of
`exhaustive_max_weight`. -/
def maskSubset : List FoodItem → ℕ → List FoodItem
  | [], _ => []
  | f :: rest, m =>
    (if m % 2 = 1 then [f] else []) ++ maskSubset rest (m / 2)

/-- One iteration of the outer loop of `exhaustive_max_weight`: the current
best (subset, best_weight) is replaced when the candidate subset is feasible
and strictly heavier. -/
def exhaustiveStep (foods : List FoodItem) (total_calorie : ℚ)
    (best : List FoodItem × ℚ) (i : ℕ) : List FoodItem × ℚ :=
  let current_subset := maskSubset foods i
  if calSum current_subset ≤ total_calorie ∧ best.2 < weightSum current_subset then
    (current_subset, weightSum current_subset)
  else best

/-- `exhaustive_max_weight`: iterate masks `0 .. 2^n - 1` starting from the
empty best subset with best weight `0`.  (`1ULL << n` equals `2^n` for
`n < 64`; for larger catalogs the C++ shift is UB — every claim about this
function carries the documented `n < 64` precondition.) -/
def exhaustive_max_weight (foods : List FoodItem) (total_calorie : ℚ) : List FoodItem :=
  ((List.range (2 ^ foods.length)).foldl (exhaustiveStep foods total_calorie) ([], 0)).1

/-- Replace an item's calorie cost by its ceiling (used to state the actual
numeric semantics of the DP solver). -/
def ceilCalories (f : FoodItem) : FoodItem :=
  ⟨f.description, (⌈f.calories⌉ : ℤ), f.weight⟩

/-- The round-half-up policy named by the spec: `floor(x + 0.5)`. -/
def roundHalfUp (x : ℚ) : ℤ := ⌊x + 1 / 2⌋

/-! ## Helper lemmas -/

theorem truncQ_eq_floor {x : ℚ} (hx : 0 ≤ x) : truncQ x = ⌊x⌋ := by
  simp [truncQ, hx]

theorem truncQ_intCast (k : ℤ) : truncQ (k : ℚ) = k := by
  unfold truncQ
  split <;> simp

theorem dp_zero (foods : List FoodItem) (w : ℤ) : dp foods 0 w = 0 := rfl

theorem dp_succ_none {foods : List FoodItem} {i : ℕ} (h : foods[i]? = none)
    (w : ℤ) : dp foods (i + 1) w = dp foods i w := by
  simp [dp, h]

theorem dp_succ_some {foods : List FoodItem} {i : ℕ} {f : FoodItem}
    (h : foods[i]? = some f) (w : ℤ) :
    dp foods (i + 1) w =
      if (w : ℚ) < f.calories then dp foods i w
      else
        if dp foods i w < dp foods i ⌊(w : ℚ) - f.calories⌋ + f.weight then
          dp foods i ⌊(w : ℚ) - f.calories⌋ + f.weight
        else dp foods i w := by
  simp [dp, h]

theorem dp_le_succ (foods : List FoodItem) (i : ℕ) (w : ℤ) :
    dp foods i w ≤ dp foods (i + 1) w := by
  cases h : foods[i]? with
  | none => rw [dp_succ_none h]
  | some f =>
    rw [dp_succ_some h]
    split
    · exact le_refl _
    · split
      · next h2 => exact le_of_lt h2
      · exact le_refl _

theorem dp_nonneg (foods : List FoodItem) (i : ℕ) (w : ℤ) : 0 ≤ dp foods i w := by
  induction i with
  | zero => exact le_refl _
  | succ i ih => exact le_trans ih (dp_le_succ foods i w)

theorem dp_ge_wit {foods : List FoodItem} {i : ℕ} {f : FoodItem}
    (h : foods[i]? = some f) {w : ℤ} (hfit : ¬ (w : ℚ) < f.calories) :
    dp foods i ⌊(w : ℚ) - f.calories⌋ + f.weight ≤ dp foods (i + 1) w := by
  rw [dp_succ_some h, if_neg hfit]
  split
  · exact le_refl _
  · next h2 => exact le_of_not_lt h2

theorem take_succ_none {foods : List FoodItem} {i : ℕ} (h : foods[i]? = none)
    (w : ℤ) : take foods (i + 1) w = false := by
  simp [take, h]

theorem take_true {foods : List FoodItem} {i : ℕ} {f : FoodItem} {w : ℤ}
    (h : foods[i]? = some f) (ht : take foods (i + 1) w = true) :
    f.calories ≤ (w : ℚ) ∧
      dp foods (i + 1) w = dp foods i ⌊(w : ℚ) - f.calories⌋ + f.weight := by
  simp only [take, h] at ht
  split at ht
  · exact absurd ht (by simp)
  · next hfit =>
    refine ⟨le_of_not_lt hfit, ?_⟩
    rw [dp_succ_some h, if_neg hfit, if_pos (of_decide_eq_true ht)]

theorem take_false_dp {foods : List FoodItem} {i : ℕ} {w : ℤ}
    (ht : take foods (i + 1) w = false) : dp foods (i + 1) w = dp foods i w := by
  cases h : foods[i]? with
  | none => exact dp_succ_none h w
  | some f =>
    simp only [take, h] at ht
    rw [dp_succ_some h]
    split at ht
    · next hfit => rw [if_pos hfit]
    · next hfit =>
      rw [if_neg hfit, if_neg (of_decide_eq_false ht)]

theorem dp_at_zero {foods : List FoodItem} (hval : ∀ f ∈ foods, 0 < f.calories)
    (i : ℕ) : dp foods i 0 = 0 := by
  induction i with
  | zero => rfl
  | succ i ih =>
    cases h : foods[i]? with
    | none => rw [dp_succ_none h, ih]
    | some f =>
      have hf : 0 < f.calories := hval f (List.getElem?_mem h)
      rw [dp_succ_some h, if_pos (by exact_mod_cast hf), ih]

theorem truncQ_nonneg {x : ℚ} (hx : -1 < x) : 0 ≤ truncQ x := by
  unfold truncQ
  split
  · next h => exact Int.floor_nonneg.mpr h
  · have : (-1 : ℤ) < ⌈x⌉ := Int.lt_ceil.mpr (by exact_mod_cast hx)
    omega

theorem calSum_append (a b : List FoodItem) : calSum (a ++ b) = calSum a + calSum b := by
  simp [calSum]

theorem weightSum_append (a b : List FoodItem) :
    weightSum (a ++ b) = weightSum a + weightSum b := by
  simp [weightSum]

theorem calSum_single (f : FoodItem) : calSum [f] = f.calories := by
  simp [calSum]

theorem weightSum_single (f : FoodItem) : weightSum [f] = f.weight := by
  simp [weightSum]

/-- The reconstruction loop, started anywhere inside the table, terminates
normally and returns a selection whose weight is exactly the table value and
whose calorie total is bounded by the remaining capacity. -/
theorem reconstruct_total {foods : List FoodItem}
    (hval : ∀ f ∈ foods, 0 < f.calories) (C : ℤ) :
    ∀ (i : ℕ) (rem : ℤ), i ≤ foods.length → 0 ≤ rem → rem ≤ C →
      ∃ r, reconstruct foods C i rem = some r ∧
        weightSum r = dp foods i rem ∧ calSum r ≤ (rem : ℚ) := by
  intro i
  induction i with
  | zero =>
    intro rem _ h0 _
    exact ⟨[], rfl, by simp [weightSum, dp], by simpa [calSum] using (by exact_mod_cast h0)⟩
  | succ i ih =>
    intro rem hlen h0 hC
    have hi : i < foods.length := Nat.lt_of_succ_le hlen
    have hget : foods[i]? = some foods[i] := List.getElem?_eq_getElem hi
    have hfmem : foods[i] ∈ foods := List.getElem?_mem hget
    have hbound : ¬ (rem < 0 ∨ C < rem) := by omega
    cases ht : take foods (i + 1) rem with
    | false =>
      obtain ⟨r, hr, hw, hc⟩ := ih rem (Nat.le_of_lt hi) h0 hC
      refine ⟨r, ?_, ?_, hc⟩
      · simp only [reconstruct, hbound, if_false, hget, ht]
        exact hr
      · rw [take_false_dp ht, hw]
    | true =>
      obtain ⟨hcle, hdp⟩ := take_true hget ht
      have hfpos : 0 < foods[i].calories := hval _ hfmem
      have hsub0 : (0 : ℚ) ≤ (rem : ℚ) - foods[i].calories := by linarith
      have hrem' : truncQ ((rem : ℚ) - foods[i].calories) =
          ⌊(rem : ℚ) - foods[i].calories⌋ := truncQ_eq_floor hsub0
      set rem' := truncQ ((rem : ℚ) - foods[i].calories) with hrem'def
      have h0' : 0 ≤ rem' := by rw [hrem']; exact Int.floor_nonneg.mpr hsub0
      have hle' : (rem' : ℚ) ≤ (rem : ℚ) - foods[i].calories := by
        rw [hrem']; exact Int.floor_le _
      have hC' : rem' ≤ C := by
        have : (rem' : ℚ) ≤ (rem : ℚ) := by linarith
        have : rem' ≤ rem := by exact_mod_cast this
        omega
      obtain ⟨r, hr, hw, hc⟩ := ih rem' (Nat.le_of_lt hi) h0' hC'
      refine ⟨r ++ [foods[i]], ?_, ?_, ?_⟩
      · simp only [reconstruct, hbound, if_false, hget, ht, if_true, ← hrem'def, hr,
          Option.map_some']
      · rw [weightSum_append, weightSum_single, hw, hdp, ← hrem']
      · rw [calSum_append, calSum_single]
        linarith

/-- Whatever the reconstruction returns is an order-preserving subsequence of
the catalog prefix it was run over. -/
theorem reconstruct_sublist {foods : List FoodItem} {C : ℤ} :
    ∀ {i : ℕ} {rem : ℤ} {r : List FoodItem},
      reconstruct foods C i rem = some r → r.Sublist (foods.take i) := by
  intro i
  induction i with
  | zero =>
    intro rem r h
    cases h
    simp
  | succ i ih =>
    intro rem r h
    rw [reconstruct] at h
    split at h
    · exact absurd h (by simp)
    · split at h
      · exact absurd h (by simp)
      · next f hget =>
        have htake : foods.take (i + 1) = foods.take i ++ [f] := by
          rw [List.take_succ, hget, Option.toList_some]
        split at h
        · rcases Option.map_eq_some'.mp h with ⟨rest, hrec, rfl⟩
          rw [htake]
          exact (ih hrec).append (List.Sublist.refl [f])
        · exact (ih h).trans (htake ▸ List.sublist_append_left _ _)

/-- `dynamic_max_weight` on a valid catalog and a budget `> -1` returns a
selection whose weight is the final DP value and whose calories fit in the
discretized budget. -/
theorem dyn_spec {foods : List FoodItem} {x : ℚ}
    (hval : ∀ f ∈ foods, 0 < f.calories) (hx : -1 < x) :
    ∃ r, dynamic_max_weight foods x = some r ∧
      weightSum r = dp foods foods.length (truncQ x) ∧
      calSum r ≤ (truncQ x : ℚ) := by
  have hC : 0 ≤ truncQ x := truncQ_nonneg hx
  obtain ⟨r, hr, hw, hc⟩ :=
    reconstruct_total hval (truncQ x) foods.length (truncQ x) (le_refl _) hC (le_refl _)
  refine ⟨r, ?_, hw, hc⟩
  simp only [dynamic_max_weight]
  rw [if_neg (by omega)]
  exact hr

theorem maskSubset_zero (l : List FoodItem) : maskSubset l 0 = [] := by
  induction l with
  | nil => rfl
  | cons f rest ih => simp [maskSubset, ih]

theorem maskSubset_mem {l : List FoodItem} {m : ℕ} {g : FoodItem}
    (h : g ∈ maskSubset l m) : g ∈ l := by
  induction l generalizing m with
  | nil => simp [maskSubset] at h
  | cons f rest ih =>
    simp only [maskSubset, List.mem_append] at h
    rcases h with h | h
    · split at h
      · simp only [List.mem_singleton] at h
        exact h ▸ List.mem_cons_self f rest
      · simp at h
    · exact List.mem_cons_of_mem f (ih h)

theorem calSum_maskSubset_nonneg {l : List FoodItem}
    (hval : ∀ f ∈ l, 0 < f.calories) (m : ℕ) : 0 ≤ calSum (maskSubset l m) := by
  induction l generalizing m with
  | nil => simp [maskSubset, calSum]
  | cons f rest ih =>
    have hf : 0 < f.calories := hval f (List.mem_cons_self f rest)
    have hrest : ∀ g ∈ rest, 0 < g.calories :=
      fun g hg => hval g (List.mem_cons_of_mem f hg)
    rw [maskSubset, calSum_append]
    have h1 : 0 ≤ calSum (if m % 2 = 1 then [f] else []) := by
      split
      · rw [calSum_single]; exact le_of_lt hf
      · simp [calSum]
    linarith [ih hrest (m / 2)]

theorem calSum_maskSubset_int {l : List FoodItem}
    (hint : ∀ f ∈ l, ∃ k : ℤ, f.calories = (k : ℚ)) (m : ℕ) :
    ∃ K : ℤ, calSum (maskSubset l m) = (K : ℚ) := by
  induction l generalizing m with
  | nil => exact ⟨0, by simp [maskSubset, calSum]⟩
  | cons f rest ih =>
    obtain ⟨k, hk⟩ := hint f (List.mem_cons_self f rest)
    have hrest : ∀ g ∈ rest, ∃ j : ℤ, g.calories = (j : ℚ) :=
      fun g hg => hint g (List.mem_cons_of_mem f hg)
    obtain ⟨K, hK⟩ := ih hrest (m / 2)
    rw [maskSubset, calSum_append]
    by_cases hm : m % 2 = 1
    · exact ⟨k + K, by rw [if_pos hm, calSum_single, hk, hK]; push_cast; ring⟩
    · exact ⟨K, by rw [if_neg hm, hK]; simp [calSum]⟩

theorem maskSubset_mod (l : List FoodItem) (m : ℕ) :
    maskSubset l (m % 2 ^ l.length) = maskSubset l m := by
  induction l generalizing m with
  | nil => rfl
  | cons f rest ih =>
    have hdvd : (2 : ℕ) ∣ 2 ^ (rest.length + 1) := dvd_pow_self 2 (Nat.succ_ne_zero _)
    have h1 : m % 2 ^ (rest.length + 1) % 2 = m % 2 := Nat.mod_mod_of_dvd m hdvd
    have h2 : m % 2 ^ (rest.length + 1) / 2 = m / 2 % 2 ^ rest.length := by
      have : (2 : ℕ) ^ (rest.length + 1) = 2 * 2 ^ rest.length := by
        rw [pow_succ, Nat.mul_comm]
      rw [this, Nat.mod_mul_right_div_self]
    simp only [maskSubset, List.length_cons, h1, h2, ih]

theorem maskSubset_append_single (xs : List FoodItem) (y : FoodItem) :
    ∀ m : ℕ, maskSubset (xs ++ [y]) m =
      maskSubset xs m ++ (if m / 2 ^ xs.length % 2 = 1 then [y] else []) := by
  induction xs with
  | nil =>
    intro m
    simp [maskSubset]
  | cons f rest ih =>
    intro m
    have hdiv : m / 2 / 2 ^ rest.length = m / 2 ^ (rest.length + 1) := by
      rw [Nat.div_div_eq_div_mul, ← pow_succ']
    simp only [List.cons_append, maskSubset, List.append_eq, ih (m / 2), List.length_cons,
      hdiv, List.append_assoc]

/-- Dominance: the DP value at row `i` bounds the weight of every mask
selection from the first `i` items whose calorie total fits capacity `w`
(integer-valued calories). -/
theorem dp_dominates {foods : List FoodItem}
    (hint : ∀ f ∈ foods, ∃ k : ℤ, 0 < k ∧ f.calories = (k : ℚ)) :
    ∀ (i : ℕ) (w : ℤ) (m : ℕ),
      calSum (maskSubset (foods.take i) m) ≤ (w : ℚ) →
      weightSum (maskSubset (foods.take i) m) ≤ dp foods i w := by
  intro i
  induction i with
  | zero =>
    intro w m _
    simp [maskSubset, weightSum, dp]
  | succ i ih =>
    intro w m hfeas
    cases hget : foods[i]? with
    | none =>
      have hlen : foods.length ≤ i := List.getElem?_eq_none_iff.mp hget
      have htake : foods.take (i + 1) = foods.take i := by
        rw [List.take_of_length_le hlen, List.take_of_length_le (le_trans hlen (Nat.le_succ i))]
      rw [htake] at hfeas ⊢
      rw [dp_succ_none hget]
      exact ih w m hfeas
    | some f =>
      have hi : i < foods.length := by
        rcases List.getElem?_eq_some_iff.mp hget with ⟨h, _⟩
        exact h
      have htake : foods.take (i + 1) = foods.take i ++ [f] := by
        rw [List.take_succ, hget, Option.toList_some]
      have hlentake : (foods.take i).length = i := by
        rw [List.length_take, min_eq_left (Nat.le_of_lt hi)]
      obtain ⟨k, hk0, hkeq⟩ := hint f (List.getElem?_mem hget)
      have hposTake : ∀ g ∈ foods.take i, 0 < g.calories := by
        intro g hg
        obtain ⟨j, hj0, hjeq⟩ := hint g (List.take_subset i foods hg)
        rw [hjeq]
        exact_mod_cast hj0
      rw [htake, maskSubset_append_single, hlentake] at hfeas ⊢
      by_cases hbit : m / 2 ^ i % 2 = 1
      · rw [if_pos hbit, calSum_append, calSum_single] at hfeas
        rw [if_pos hbit, weightSum_append, weightSum_single]
        have hS0 : 0 ≤ calSum (maskSubset (foods.take i) m) :=
          calSum_maskSubset_nonneg hposTake m
        have hcw : f.calories ≤ (w : ℚ) := by linarith
        have hfit : ¬ (w : ℚ) < f.calories := not_lt.mpr hcw
        have hfloor : ⌊(w : ℚ) - f.calories⌋ = w - k := by
          rw [hkeq]
          rw [show (w : ℚ) - (k : ℚ) = ((w - k : ℤ) : ℚ) by push_cast; ring, Int.floor_intCast]
        have hwit := dp_ge_wit hget hfit
        rw [hfloor] at hwit
        have hfeas2 : calSum (maskSubset (foods.take i) m) ≤ ((w - k : ℤ) : ℚ) := by
          rw [hkeq] at hfeas
          push_cast
          linarith
        have := ih (w - k) m hfeas2
        linarith
      · rw [if_neg hbit, List.append_nil] at hfeas ⊢
        exact le_trans (ih w m hfeas) (dp_le_succ foods i w)

/-- Achievability: the DP value at row `i`, capacity `w ≥ 0`, is the weight
of some mask selection from the first `i` items that fits in `w`
(integer-valued calories). -/
theorem dp_achieved {foods : List FoodItem}
    (hint : ∀ f ∈ foods, ∃ k : ℤ, 0 < k ∧ f.calories = (k : ℚ)) :
    ∀ (i : ℕ) (w : ℤ), 0 ≤ w →
      ∃ m < 2 ^ i, calSum (maskSubset (foods.take i) m) ≤ (w : ℚ) ∧
        weightSum (maskSubset (foods.take i) m) = dp foods i w := by
  intro i
  induction i with
  | zero =>
    intro w hw
    refine ⟨0, Nat.one_pos, ?_, ?_⟩
    · simp only [maskSubset_zero]
      simp [calSum]
      exact_mod_cast hw
    · simp [maskSubset_zero, weightSum, dp]
  | succ i ih =>
    intro w hw
    have hpowle : (2 : ℕ) ^ i ≤ 2 ^ (i + 1) := Nat.pow_le_pow_right (by norm_num) (Nat.le_succ i)
    cases hget : foods[i]? with
    | none =>
      have hlen : foods.length ≤ i := List.getElem?_eq_none_iff.mp hget
      have htake : foods.take (i + 1) = foods.take i := by
        rw [List.take_of_length_le hlen, List.take_of_length_le (le_trans hlen (Nat.le_succ i))]
      obtain ⟨m, hm, hfeas, hwt⟩ := ih w hw
      exact ⟨m, lt_of_lt_of_le hm hpowle, htake ▸ hfeas,
        by rw [htake, dp_succ_none hget]; exact hwt⟩
    | some f =>
      have hi : i < foods.length := by
        rcases List.getElem?_eq_some_iff.mp hget with ⟨h, _⟩
        exact h
      have htake : foods.take (i + 1) = foods.take i ++ [f] := by
        rw [List.take_succ, hget, Option.toList_some]
      have hlentake : (foods.take i).length = i := by
        rw [List.length_take, min_eq_left (Nat.le_of_lt hi)]
      obtain ⟨k, hk0, hkeq⟩ := hint f (List.getElem?_mem hget)
      by_cases hfit : (w : ℚ) < f.calories
      · obtain ⟨m, hm, hfeas, hwt⟩ := ih w hw
        have hbit : ¬ m / 2 ^ i % 2 = 1 := by rw [Nat.div_eq_of_lt hm]; omega
        refine ⟨m, lt_of_lt_of_le hm hpowle, ?_, ?_⟩
        · rw [htake, maskSubset_append_single, hlentake, if_neg hbit, List.append_nil]
          exact hfeas
        · rw [htake, maskSubset_append_single, hlentake, if_neg hbit, List.append_nil]
          rw [dp_succ_some hget, if_pos hfit]
          exact hwt
      · by_cases himp : dp foods i w < dp foods i ⌊(w : ℚ) - f.calories⌋ + f.weight
        · have hfloor : ⌊(w : ℚ) - f.calories⌋ = w - k := by
            rw [hkeq]
            rw [show (w : ℚ) - (k : ℚ) = ((w - k : ℤ) : ℚ) by push_cast; ring, Int.floor_intCast]
          have hkw : k ≤ w := by
            have h1 : (k : ℚ) ≤ (w : ℚ) := by rw [← hkeq]; exact not_lt.mp hfit
            exact_mod_cast h1
          obtain ⟨m, hm, hfeas, hwt⟩ := ih (w - k) (by omega)
          have hbit : (m + 2 ^ i) / 2 ^ i % 2 = 1 := by
            rw [Nat.add_div_right m (Nat.pos_pow_of_pos i (by norm_num)), Nat.div_eq_of_lt hm]
          have hmask : maskSubset (foods.take i) (m + 2 ^ i) =
              maskSubset (foods.take i) m := by
            rw [← maskSubset_mod (foods.take i) (m + 2 ^ i), hlentake, Nat.add_mod_right,
              Nat.mod_eq_of_lt hm]
          have hlt2 : m + 2 ^ i < 2 ^ (i + 1) := by
            have : (2 : ℕ) ^ (i + 1) = 2 ^ i + 2 ^ i := by rw [pow_succ]; omega
            omega
          refine ⟨m + 2 ^ i, hlt2, ?_, ?_⟩
          · rw [htake, maskSubset_append_single, hlentake, if_pos hbit, hmask,
              calSum_append, calSum_single, hkeq]
            push_cast at hfeas ⊢
            linarith
          · rw [htake, maskSubset_append_single, hlentake, if_pos hbit, hmask,
              weightSum_append, weightSum_single, hwt]
            rw [dp_succ_some hget, if_neg hfit, if_pos himp, hfloor]
        · obtain ⟨m, hm, hfeas, hwt⟩ := ih w hw
          have hbit : ¬ m / 2 ^ i % 2 = 1 := by rw [Nat.div_eq_of_lt hm]; omega
          refine ⟨m, lt_of_lt_of_le hm hpowle, ?_, ?_⟩
          · rw [htake, maskSubset_append_single, hlentake, if_neg hbit, List.append_nil]
            exact hfeas
          · rw [htake, maskSubset_append_single, hlentake, if_neg hbit, List.append_nil]
            rw [dp_succ_some hget, if_neg hfit, if_neg himp]
            exact hwt

theorem exhaustiveStep_eq (foods : List FoodItem) (x : ℚ) (acc : List FoodItem × ℚ)
    (i : ℕ) :
    exhaustiveStep foods x acc i =
      if calSum (maskSubset foods i) ≤ x ∧ acc.2 < weightSum (maskSubset foods i) then
        (maskSubset foods i, weightSum (maskSubset foods i))
      else acc := rfl

/-- Loop invariant of the exhaustive search: the tracked best weight is the
weight of the tracked subset, and the subset is either still the starting
one or a feasible mask subset among the processed indices. -/
theorem exhLoop_invariant (foods : List FoodItem) (x : ℚ) :
    ∀ (l : List ℕ) (acc : List FoodItem × ℚ), acc.2 = weightSum acc.1 →
      (l.foldl (exhaustiveStep foods x) acc).2 =
          weightSum (l.foldl (exhaustiveStep foods x) acc).1 ∧
        ((l.foldl (exhaustiveStep foods x) acc).1 = acc.1 ∨
          ∃ m ∈ l, (l.foldl (exhaustiveStep foods x) acc).1 = maskSubset foods m ∧
            calSum (maskSubset foods m) ≤ x) := by
  intro l
  induction l with
  | nil =>
    intro acc h
    exact ⟨h, Or.inl rfl⟩
  | cons m0 rest ih =>
    intro acc h
    rw [List.foldl_cons]
    have h1 : (exhaustiveStep foods x acc m0).2 =
        weightSum (exhaustiveStep foods x acc m0).1 := by
      rw [exhaustiveStep_eq]
      split
      · rfl
      · exact h
    obtain ⟨ha, hb⟩ := ih (exhaustiveStep foods x acc m0) h1
    refine ⟨ha, ?_⟩
    rcases hb with hb | ⟨m, hm, hbm, hfeas⟩
    · rw [hb, exhaustiveStep_eq]
      split
      · next hc => exact Or.inr ⟨m0, List.mem_cons_self m0 rest, rfl, hc.1⟩
      · exact Or.inl rfl
    · exact Or.inr ⟨m, List.mem_cons_of_mem m0 hm, hbm, hfeas⟩

/-- The tracked best weight never decreases along the exhaustive loop. -/
theorem exhLoop_mono (foods : List FoodItem) (x : ℚ) :
    ∀ (l : List ℕ) (acc : List FoodItem × ℚ),
      acc.2 ≤ (l.foldl (exhaustiveStep foods x) acc).2 := by
  intro l
  induction l with
  | nil => intro acc; exact le_refl _
  | cons m0 rest ih =>
    intro acc
    rw [List.foldl_cons]
    refine le_trans ?_ (ih (exhaustiveStep foods x acc m0))
    rw [exhaustiveStep_eq]
    split
    · next hc => exact le_of_lt hc.2
    · exact le_refl _

/-- Every feasible processed mask subset is dominated by the final best
weight of the exhaustive loop. -/
theorem exhLoop_dominates (foods : List FoodItem) (x : ℚ) :
    ∀ (l : List ℕ) (acc : List FoodItem × ℚ) (m : ℕ), m ∈ l →
      calSum (maskSubset foods m) ≤ x →
      weightSum (maskSubset foods m) ≤ (l.foldl (exhaustiveStep foods x) acc).2 := by
  intro l
  induction l with
  | nil =>
    intro acc m hm
    cases hm
  | cons m0 rest ih =>
    intro acc m hm hfeas
    rw [List.foldl_cons]
    rcases List.mem_cons.mp hm with rfl | hm2
    · refine le_trans ?_ (exhLoop_mono foods x rest _)
      rw [exhaustiveStep_eq]
      split
      · exact le_refl _
      · next hc =>
        push_neg at hc
        exact hc hfeas
    · exact ih _ m hm2 hfeas

/-- The final best weight of the exhaustive search is the weight of the
returned subset. -/
theorem exh_best_weight (foods : List FoodItem) (x : ℚ) :
    ((List.range (2 ^ foods.length)).foldl (exhaustiveStep foods x) ([], 0)).2 =
      weightSum (exhaustive_max_weight foods x) :=
  (exhLoop_invariant foods x (List.range (2 ^ foods.length)) ([], 0)
    (by simp [weightSum])).1

/-- The exhaustive result is empty, or a feasible mask subset. -/
theorem exh_cases (foods : List FoodItem) (x : ℚ) :
    exhaustive_max_weight foods x = [] ∨
      ∃ m < 2 ^ foods.length, exhaustive_max_weight foods x = maskSubset foods m ∧
        calSum (exhaustive_max_weight foods x) ≤ x := by
  obtain ⟨_, hb⟩ := exhLoop_invariant foods x (List.range (2 ^ foods.length)) ([], 0)
    (by simp [weightSum])
  rcases hb with hb | ⟨m, hm, hbm, hfeas⟩
  · exact Or.inl hb
  · exact Or.inr ⟨m, List.mem_range.mp hm, hbm, by
      show calSum (exhaustive_max_weight foods x) ≤ x
      unfold exhaustive_max_weight
      rw [hbm]
      exact hfeas⟩

/-- The exhaustive result dominates every feasible mask subset. -/
theorem exh_dominates (foods : List FoodItem) (x : ℚ) (m : ℕ)
    (hm : m < 2 ^ foods.length) (hfeas : calSum (maskSubset foods m) ≤ x) :
    weightSum (maskSubset foods m) ≤ weightSum (exhaustive_max_weight foods x) := by
  rw [← exh_best_weight]
  exact exhLoop_dominates foods x _ ([], 0) m (List.mem_range.mpr hm) hfeas

/-! ## Claim theorems -/

/-- C1 (counterexample): as stated — "for every catalog … and for every
budget" — the claim fails: at budget `-2` (an empty catalog, trivially of
integer calories and size `< 20`) the DP solver constructs its table columns
with count `total_calories + 1 = -1`, i.e. a huge `size_t`, and throws
instead of returning a solution set, while the exhaustive solver returns a
set; so the two total weights cannot be compared, let alone equal. -/
theorem c1_cex :
    ¬ ∃ d, dynamic_max_weight [] (-2) = some d ∧
        weightSum d = weightSum (exhaustive_max_weight [] (-2)) := by
  rintro ⟨d, hd, -⟩
  have h0 : dynamic_max_weight [] (-2) = none := by decide
  rw [h0] at hd
  exact Option.noConfusion hd

/-- C1 (amended): for every catalog of fewer than 20 items whose calorie
values are integer-valued (and positive, per the `FoodItem` invariant), and
every budget greater than `-1` (for budgets `≤ -1` the DP solver throws or
reads out of bounds), the DP solution's total weight equals the exhaustive
solution's total weight. -/
theorem c1_weight_equivalence (foods : List FoodItem) (x : ℚ)
    (_hn : foods.length < 20)
    (hint : ∀ f ∈ foods, ∃ k : ℤ, 0 < k ∧ f.calories = (k : ℚ))
    (hx : -1 < x) :
    ∃ d, dynamic_max_weight foods x = some d ∧
      weightSum d = weightSum (exhaustive_max_weight foods x) := by
  have hval : ∀ f ∈ foods, 0 < f.calories := by
    intro f hf
    obtain ⟨k, hk0, hkeq⟩ := hint f hf
    rw [hkeq]
    exact_mod_cast hk0
  obtain ⟨d, hd, hw, hc⟩ := dyn_spec hval hx
  refine ⟨d, hd, ?_⟩
  have hC0 : 0 ≤ truncQ x := truncQ_nonneg hx
  by_cases hx0 : 0 ≤ x
  · have hCx : (truncQ x : ℚ) ≤ x := by
      rw [truncQ_eq_floor hx0]
      exact_mod_cast Int.floor_le x
    obtain ⟨m, hm, hfeas, hwt⟩ := dp_achieved hint foods.length (truncQ x) hC0
    rw [List.take_length] at hfeas hwt
    have h1 : weightSum d ≤ weightSum (exhaustive_max_weight foods x) := by
      rw [hw, ← hwt]
      exact exh_dominates foods x m hm (le_trans hfeas hCx)
    have h2 : weightSum (exhaustive_max_weight foods x) ≤ weightSum d := by
      rw [hw]
      rcases exh_cases foods x with hB | ⟨m2, hm2, hBm, hBfeas⟩
      · rw [hB]
        simpa [weightSum] using dp_nonneg foods foods.length (truncQ x)
      · have hintW : ∀ f ∈ foods, ∃ k : ℤ, f.calories = (k : ℚ) := by
          intro f hf
          obtain ⟨k, -, hkeq⟩ := hint f hf
          exact ⟨k, hkeq⟩
        obtain ⟨K, hK⟩ := calSum_maskSubset_int hintW m2
        have hfeasC : calSum (maskSubset foods m2) ≤ (truncQ x : ℚ) := by
          have hKx : (K : ℚ) ≤ x := by
            rw [← hK, ← hBm]
            exact hBfeas
          have hKfl : K ≤ ⌊x⌋ := Int.le_floor.mpr hKx
          rw [hK, truncQ_eq_floor hx0]
          exact_mod_cast hKfl
        have hdom := dp_dominates hint foods.length (truncQ x) m2
          (by rw [List.take_length]; exact hfeasC)
        rw [List.take_length] at hdom
        rw [hBm]
        exact hdom
    linarith
  · push_neg at hx0
    have hCz : truncQ x = 0 := by
      have h2 : 0 < truncQ x + 1 := by omega
      unfold truncQ at *
      rw [if_neg (not_le.mpr hx0)] at *
      have hcl : ⌈x⌉ ≤ 0 := Int.ceil_le.mpr (by exact_mod_cast le_of_lt hx0)
      omega
    have hdp0 : dp foods foods.length (truncQ x) = 0 := by
      rw [hCz]
      exact dp_at_zero hval _
    have hBempty : exhaustive_max_weight foods x = [] := by
      rcases exh_cases foods x with hB | ⟨m2, hm2, hBm, hBfeas⟩
      · exact hB
      · exfalso
        have h0 : 0 ≤ calSum (maskSubset foods m2) := calSum_maskSubset_nonneg hval m2
        have hle : calSum (maskSubset foods m2) ≤ x := by
          rw [← hBm]
          exact hBfeas
        linarith
    rw [hw, hdp0, hBempty]
    simp [weightSum]

/-- C1 (witness): a concrete two-item integer-calorie catalog at budget 2. -/
theorem c1_weight_equivalence_witness :
    ∃ d, dynamic_max_weight [⟨"a", 1, 2⟩, ⟨"b", 2, 3⟩] 2 = some d ∧
      weightSum d = weightSum (exhaustive_max_weight [⟨"a", 1, 2⟩, ⟨"b", 2, 3⟩] 2) :=
  c1_weight_equivalence [⟨"a", 1, 2⟩, ⟨"b", 2, 3⟩] 2 (by norm_num)
    (by
      intro f hf
      rcases List.mem_cons.mp hf with rfl | hf
      · exact ⟨1, by norm_num, by norm_num⟩
      rcases List.mem_cons.mp hf with rfl | hf
      · exact ⟨2, by norm_num, by norm_num⟩
      · cases hf)
    (by norm_num)

/-- C2 (counterexample): as stated — "for every catalog and every budget" —
the claim fails at a negative budget: on the empty catalog with budget
`-1/2` the exhaustive solver returns the empty set, whose calorie sum `0`
exceeds the budget. -/
theorem c2_cex : ¬ calSum (exhaustive_max_weight [] (-1 / 2)) ≤ (-1 / 2 : ℚ) := by
  decide

/-- C2 (amended): for every catalog of valid items (`calories > 0`), every
non-negative budget, and fewer than 64 items in the exhaustive case, both
solvers return solution sets whose aggregate calories do not exceed the
budget. -/
theorem c2_feasibility (foods : List FoodItem) (x : ℚ)
    (hval : ∀ f ∈ foods, 0 < f.calories) (_hn : foods.length < 64) (hx : 0 ≤ x) :
    (∃ r, dynamic_max_weight foods x = some r ∧ calSum r ≤ x) ∧
      calSum (exhaustive_max_weight foods x) ≤ x := by
  have hx1 : (-1 : ℚ) < x := by linarith
  obtain ⟨r, hr, -, hc⟩ := dyn_spec hval hx1
  have hCx : (truncQ x : ℚ) ≤ x := by
    rw [truncQ_eq_floor hx]
    exact_mod_cast Int.floor_le x
  refine ⟨⟨r, hr, le_trans hc hCx⟩, ?_⟩
  rcases exh_cases foods x with hB | ⟨m, hm, hBm, hBfeas⟩
  · rw [hB]
    simpa [calSum] using hx
  · exact hBfeas

/-- C2 (witness): one valid item at budget 1. -/
theorem c2_feasibility_witness :
    (∃ r, dynamic_max_weight [⟨"a", 1, 1⟩] 1 = some r ∧ calSum r ≤ 1) ∧
      calSum (exhaustive_max_weight [⟨"a", 1, 1⟩] 1) ≤ 1 :=
  c2_feasibility [⟨"a", 1, 1⟩] 1
    (by
      intro f hf
      rcases List.mem_cons.mp hf with rfl | hf
      · norm_num
      · cases hf)
    (by norm_num) (by norm_num)

/-- C3 (counterexample): the discretized budget is not `floor(x + 0.5)`.
At budget `3/2`, `roundHalfUp (3/2) = 2`, yet the solver behaves like
budget `1`: the 2-calorie item is rejected at budget `3/2` but chosen at
budget `2`. -/
theorem c3_cex :
    dynamic_max_weight [⟨"a", 2, 5⟩] (3 / 2) = some [] ∧
      dynamic_max_weight [⟨"a", 2, 5⟩] ((roundHalfUp (3 / 2) : ℤ) : ℚ) =
        some [⟨"a", 2, 5⟩] := by
  constructor <;> decide

/-- C3 (amended): the discretized integer budget is the truncation toward
zero of the input (`static_cast<int>`), hence `⌊x⌋` for non-negative `x`:
the solver's behaviour at budget `x ≥ 0` is identical to its behaviour at
budget `⌊x⌋`. -/
theorem c3_discretization (foods : List FoodItem) (x : ℚ) (hx : 0 ≤ x) :
    dynamic_max_weight foods x = dynamic_max_weight foods ((⌊x⌋ : ℤ) : ℚ) := by
  unfold dynamic_max_weight
  rw [truncQ_eq_floor hx, truncQ_intCast]

/-- C3 (witness): budget `3/2` behaves exactly like budget `⌊3/2⌋ = 1`. -/
theorem c3_discretization_witness :
    dynamic_max_weight [⟨"a", 2, 5⟩] (3 / 2) =
      dynamic_max_weight [⟨"a", 2, 5⟩] ((⌊(3 / 2 : ℚ)⌋ : ℤ) : ℚ) :=
  c3_discretization [⟨"a", 2, 5⟩] (3 / 2) (by norm_num)

/-- C7 (counterexample): with two unit-calorie items and budget 2 both items
are taken; the last item added during the forward pass is item "b", but the
returned sequence is `[a, b]` — "b" appears last, not first. -/
theorem c7_cex :
    dynamic_max_weight [⟨"a", 1, 1⟩, ⟨"b", 1, 1⟩] 2 =
        some [⟨"a", 1, 1⟩, ⟨"b", 1, 1⟩] ∧
      ([⟨"a", 1, 1⟩, ⟨"b", 1, 1⟩] : List FoodItem) ≠ [⟨"b", 1, 1⟩, ⟨"a", 1, 1⟩] := by
  constructor <;> decide

/-- C7 (amended): the reconstruction visits items in decreasing index order
but inserts each taken item at the front of the result, so the returned
solution set lists the selected items in *increasing* original-index order —
an order-preserving subsequence of the catalog; the last item added during
the forward pass appears last. -/
theorem c7_result_order (foods : List FoodItem) (x : ℚ) (r : List FoodItem)
    (h : dynamic_max_weight foods x = some r) : r.Sublist foods := by
  simp only [dynamic_max_weight] at h
  split at h
  · exact Option.noConfusion h
  · have hs := reconstruct_sublist h
    rwa [List.take_length] at hs

/-- C7 (witness): the concrete two-item run, whose result `[a, b]` is a
subsequence of the catalog `[a, b]`. -/
theorem c7_result_order_witness :
    dynamic_max_weight [⟨"a", 1, 1⟩, ⟨"b", 1, 1⟩] 2 =
        some [⟨"a", 1, 1⟩, ⟨"b", 1, 1⟩] ∧
      ([⟨"a", 1, 1⟩, ⟨"b", 1, 1⟩] : List FoodItem).Sublist [⟨"a", 1, 1⟩, ⟨"b", 1, 1⟩] :=
  ⟨by decide, c7_result_order [⟨"a", 1, 1⟩, ⟨"b", 1, 1⟩] 2 _ (by decide)⟩

/-- C8 (counterexample): at budget `-3` the table columns are constructed
with count `-2`, i.e. a huge `size_t`; `std::vector` throws and no solution
set is returned. -/
theorem c8_cex : dynamic_max_weight [⟨"a", 1, 1⟩] (-3) = none := by decide

/-- C8 (amended): for every catalog of valid items (`calories > 0`) and
every budget greater than `-1`, the DP solver terminates normally with a
solution set (possibly empty).  (For budgets `≤ -1` the C++ code throws
`std::length_error` or reads `take[i][-1]` out of bounds.) -/
theorem c8_no_error (foods : List FoodItem) (x : ℚ)
    (hval : ∀ f ∈ foods, 0 < f.calories) (hx : -1 < x) :
    ∃ r, dynamic_max_weight foods x = some r := by
  obtain ⟨r, hr, -, -⟩ := dyn_spec hval hx
  exact ⟨r, hr⟩

/-- C8 (witness): a valid one-item catalog at budget 0 returns a (here
empty) solution set. -/
theorem c8_no_error_witness : ∃ r, dynamic_max_weight [⟨"a", 1, 1⟩] 0 = some r :=
  c8_no_error [⟨"a", 1, 1⟩] 0
    (by
      intro f hf
      rcases List.mem_cons.mp hf with rfl | hf
      · norm_num
      · cases hf)
    (by norm_num)

/-! ## Ceiling semantics of the DP solver (for C9) -/

theorem ceil_fit_iff (f : FoodItem) (w : ℤ) :
    ((w : ℚ) < (ceilCalories f).calories) ↔ ((w : ℚ) < f.calories) := by
  simp only [ceilCalories]
  constructor
  · intro h
    exact Int.lt_ceil.mp (by exact_mod_cast h)
  · intro h
    exact_mod_cast Int.lt_ceil.mpr h

theorem floor_sub_calories (f : FoodItem) (w : ℤ) :
    ⌊(w : ℚ) - f.calories⌋ = w - ⌈f.calories⌉ := by
  rw [show (w : ℚ) - f.calories = (w : ℤ) + (-f.calories) by ring,
    Int.floor_int_add, Int.floor_neg]
  ring

theorem trunc_sub_calories {f : FoodItem} {rem : ℤ} (h : f.calories ≤ (rem : ℚ)) :
    truncQ ((rem : ℚ) - f.calories) = rem - ⌈f.calories⌉ := by
  rw [truncQ_eq_floor (by linarith), floor_sub_calories]

theorem dp_ceil (foods : List FoodItem) :
    ∀ (i : ℕ) (w : ℤ), dp (foods.map ceilCalories) i w = dp foods i w := by
  intro i
  induction i with
  | zero => intro w; rfl
  | succ i ih =>
    intro w
    cases hget : foods[i]? with
    | none =>
      have hget2 : (foods.map ceilCalories)[i]? = none := by
        rw [List.getElem?_map, hget, Option.map_none']
      rw [dp_succ_none hget2, dp_succ_none hget, ih]
    | some f =>
      have hget2 : (foods.map ceilCalories)[i]? = some (ceilCalories f) := by
        rw [List.getElem?_map, hget, Option.map_some']
      rw [dp_succ_some hget2, dp_succ_some hget]
      have hwt : (ceilCalories f).weight = f.weight := rfl
      have hfloor : ⌊(w : ℚ) - (ceilCalories f).calories⌋ = ⌊(w : ℚ) - f.calories⌋ := by
        simp only [ceilCalories]
        rw [floor_sub_calories f w,
          show (w : ℚ) - ((⌈f.calories⌉ : ℤ) : ℚ) = ((w - ⌈f.calories⌉ : ℤ) : ℚ) by
            push_cast; ring,
          Int.floor_intCast]
      by_cases hfit : (w : ℚ) < f.calories
      · rw [if_pos ((ceil_fit_iff f w).mpr hfit), if_pos hfit, ih]
      · rw [if_neg (fun hc => hfit ((ceil_fit_iff f w).mp hc)), if_neg hfit,
          hwt, hfloor, ih, ih]

theorem take_ceil (foods : List FoodItem) :
    ∀ (i : ℕ) (w : ℤ), take (foods.map ceilCalories) i w = take foods i w := by
  intro i
  cases i with
  | zero => intro w; rfl
  | succ i =>
    intro w
    cases hget : foods[i]? with
    | none =>
      have hget2 : (foods.map ceilCalories)[i]? = none := by
        rw [List.getElem?_map, hget, Option.map_none']
      simp [take, hget, hget2]
    | some f =>
      have hget2 : (foods.map ceilCalories)[i]? = some (ceilCalories f) := by
        rw [List.getElem?_map, hget, Option.map_some']
      have hwt : (ceilCalories f).weight = f.weight := rfl
      have hfloor : ⌊(w : ℚ) - (ceilCalories f).calories⌋ = ⌊(w : ℚ) - f.calories⌋ := by
        simp only [ceilCalories]
        rw [floor_sub_calories f w,
          show (w : ℚ) - ((⌈f.calories⌉ : ℤ) : ℚ) = ((w - ⌈f.calories⌉ : ℤ) : ℚ) by
            push_cast; ring,
          Int.floor_intCast]
      simp only [take, hget, hget2]
      by_cases hfit : (w : ℚ) < f.calories
      · rw [if_pos ((ceil_fit_iff f w).mpr hfit), if_pos hfit]
      · rw [if_neg (fun hc => hfit ((ceil_fit_iff f w).mp hc)), if_neg hfit,
          hwt, hfloor, dp_ceil, dp_ceil]

theorem reconstruct_ceil (foods : List FoodItem) (C : ℤ) :
    ∀ (i : ℕ) (rem : ℤ),
      reconstruct (foods.map ceilCalories) C i rem =
        (reconstruct foods C i rem).map (List.map ceilCalories) := by
  intro i
  induction i with
  | zero => intro rem; rfl
  | succ i ih =>
    intro rem
    rw [reconstruct, reconstruct]
    by_cases hb : rem < 0 ∨ C < rem
    · rw [if_pos hb, if_pos hb, Option.map_none']
    · rw [if_neg hb, if_neg hb]
      cases hget : foods[i]? with
      | none =>
        have hget2 : (foods.map ceilCalories)[i]? = none := by
          rw [List.getElem?_map, hget, Option.map_none']
        simp only [hget2]
        rfl
      | some f =>
        have hget2 : (foods.map ceilCalories)[i]? = some (ceilCalories f) := by
          rw [List.getElem?_map, hget, Option.map_some']
        simp only [hget2, take_ceil]
        cases ht : take foods (i + 1) rem with
        | false =>
          rw [if_neg (by simp [ht]), if_neg (by simp [ht]), ih]
        | true =>
          rw [if_pos (by simp [ht]), if_pos (by simp [ht])]
          obtain ⟨hcle, -⟩ := take_true hget ht
          have hrem : truncQ ((rem : ℚ) - (ceilCalories f).calories) =
              truncQ ((rem : ℚ) - f.calories) := by
            have hcle2 : (ceilCalories f).calories ≤ (rem : ℚ) := by
              show ((⌈f.calories⌉ : ℤ) : ℚ) ≤ (rem : ℚ)
              have : ⌈f.calories⌉ ≤ rem := Int.ceil_le.mpr hcle
              exact_mod_cast this
            rw [trunc_sub_calories hcle, trunc_sub_calories hcle2]
            simp only [ceilCalories]
            rw [Int.ceil_intCast]
          rw [hrem, ih]
          cases reconstruct foods C i (truncQ ((rem : ℚ) - f.calories)) with
          | none => rfl
          | some rest =>
            simp only [Option.map_some', List.map_append]
            rfl

/-- C9 (counterexample): the calorie cost is *not* truncated in the
fits-or-not decision: an item of `5/2` calories at integer capacity 2 is
rejected (the comparison `2.5 > 2` uses the real value), although its
truncation `2` would fit — pre-truncating the calorie field changes the
returned selection. -/
theorem c9_cex :
    dynamic_max_weight [⟨"a", 5 / 2, 1⟩] 2 = some [] ∧
      dynamic_max_weight [⟨"a", 2, 1⟩] 2 = some [⟨"a", 2, 1⟩] := by
  constructor <;> decide

/-- C9 (amended): the DP solver treats every item's calorie cost as its
*ceiling*, not its truncation: the fits test compares the real value against
the integer capacity (`c > w ↔ ⌈c⌉ > w`), the table offset is
`⌊w − c⌋ = w − ⌈c⌉`, and the reconstruction decrement is
`trunc(r − c) = r − ⌈c⌉`; so replacing every calorie value by its ceiling
leaves the solver's behaviour unchanged.  (For integer-valued calories the
ceiling coincides with the value, hence with its truncation.) -/
theorem c9_ceiling_semantics (foods : List FoodItem) (x : ℚ) :
    dynamic_max_weight (foods.map ceilCalories) x =
      (dynamic_max_weight foods x).map (List.map ceilCalories) := by
  simp only [dynamic_max_weight, List.length_map]
  by_cases hc : truncQ x + 1 < 0
  · rw [if_pos hc, if_pos hc, Option.map_none']
  · rw [if_neg hc, if_neg hc, reconstruct_ceil]

/-! ## Loader lemmas and claims (C4, C5) -/

/-- C4 (code evaluation): a line whose calories field does not parse is not
skipped.  `parse_dbl` never reports failure (`if (!ss)` on a fresh stream is
never taken and `ss >> output` is unchecked), so the bad field becomes `0`:
a non-numeric calories field then trips `assert(calories > 0)` and aborts
the whole load, and a non-numeric weight field produces an item with weight
`0` that is *included* in the catalog. -/
theorem c4_unparsable_not_skipped :
    load_food_database ["name^calories^weight", "apple^95^4.0", "junk^xyz^2.0"] =
        LoadResult.assertAbort ∧
      load_food_database ["name^calories^weight", "bread^100^zz"] =
        LoadResult.ok [⟨"bread", 100, 0⟩] := by
  constructor <;> decide

/-- Any run of the loader loop that starts with valid lines and then meets a
line whose field count is not 3 returns the `failure` value. -/
theorem loadLines_failure (bad : String) (hbad : (getlineFields bad).length ≠ 3)
    (post : List String) :
    ∀ (pre : List String) (acc : List FoodItem),
      (∀ l ∈ pre, validLine l = true) →
      loadLines (pre ++ bad :: post) acc = LoadResult.failure := by
  intro pre
  induction pre with
  | nil =>
    intro acc _
    rw [List.nil_append]
    rcases hsh : getlineFields bad with _ | ⟨d, _ | ⟨c, _ | ⟨w, _ | ⟨e, rest4⟩⟩⟩⟩
    · simp [loadLines, hsh]
    · simp [loadLines, hsh]
    · simp [loadLines, hsh]
    · exfalso
      rw [hsh] at hbad
      simp at hbad
    · simp [loadLines, hsh]
  | cons l pre ih =>
    intro acc hpre
    have hl : validLine l = true := hpre l (List.mem_cons_self l pre)
    unfold validLine at hl
    rcases hsh : getlineFields l with _ | ⟨d, _ | ⟨c, _ | ⟨w, _ | ⟨e, rest4⟩⟩⟩⟩ <;>
      rw [hsh] at hl
    · simp at hl
    · simp at hl
    · simp at hl
    · obtain ⟨item, hitem⟩ := Option.isSome_iff_exists.mp (by simpa using hl)
      simp only [parse_dbl] at hitem
      rw [List.cons_append]
      rw [show loadLines (l :: (pre ++ bad :: post)) acc =
          loadLines (pre ++ bad :: post) (acc ++ [item]) by
        simp only [loadLines, hsh, parse_dbl, Bool.and_self, if_true, hitem]]
      exact ih (acc ++ [item]) (fun g hg => hpre g (List.mem_cons_of_mem l hg))
    · simp at hl

/-- C5: a data line with a caret-field count other than 3 is fatal: the
loader returns the failure value (no partial catalog), whatever valid lines
come before or after it. -/
theorem c5_malformed_fatal (header bad : String) (pre post : List String)
    (hpre : ∀ l ∈ pre, validLine l = true)
    (hbad : (getlineFields bad).length ≠ 3) :
    load_food_database (header :: (pre ++ bad :: post)) = LoadResult.failure := by
  show loadLines (pre ++ bad :: post) [] = LoadResult.failure
  exact loadLines_failure bad hbad post pre [] hpre

/-- C5 (witness): a 2-field line surrounded by valid lines. -/
theorem c5_malformed_fatal_witness :
    load_food_database ["name^calories^weight", "apple^95^4.0", "x^y", "z^1^1"] =
      LoadResult.failure :=
  c5_malformed_fatal ("name^calories^weight") ("x^y") ["apple^95^4.0"] ["z^1^1"]
    (by
      intro l hl
      rcases List.mem_cons.mp hl with rfl | hl
      · decide
      · cases hl)
    (by decide)

/-! ## Filter lemmas and claims (C6, C10) -/

/-- With limit 0 the size test `result.size() == 0` never fires (it runs only
after an append), so the loop filters the entire source. -/
theorem filterLoop_limit_zero (mn mx : ℚ) :
    ∀ (src acc : List FoodItem),
      filterLoop mn mx 0 src acc = acc ++ src.filter (inRange mn mx) := by
  intro src
  induction src with
  | nil =>
    intro acc
    simp [filterLoop]
  | cons item rest ih =>
    intro acc
    rw [filterLoop]
    by_cases h : mn ≤ item.weight ∧ item.weight ≤ mx
    · rw [if_pos h]
      have hin : inRange mn mx item = true := by simp [inRange, h]
      rw [if_neg (by simp), ih, List.filter_cons, hin]
      simp
    · rw [if_neg h, ih]
      have hin : inRange mn mx item = false := by
        simp only [inRange, decide_eq_false_iff_not]
        exact h
      rw [List.filter_cons, hin]
      simp

/-- If the limit is larger than everything the loop could ever accumulate,
the size test never fires either. -/
theorem filterLoop_limit_large (mn mx : ℚ) (limit : ℕ) :
    ∀ (src acc : List FoodItem), acc.length + src.length < limit →
      filterLoop mn mx limit src acc = acc ++ src.filter (inRange mn mx) := by
  intro src
  induction src with
  | nil =>
    intro acc _
    simp [filterLoop]
  | cons item rest ih =>
    intro acc hlt
    rw [filterLoop]
    by_cases h : mn ≤ item.weight ∧ item.weight ≤ mx
    · rw [if_pos h]
      have hin : inRange mn mx item = true := by simp [inRange, h]
      have hne : (acc ++ [item]).length ≠ limit := by
        simp only [List.length_append, List.length_singleton]
        simp only [List.length_cons] at hlt
        omega
      rw [if_neg hne, ih (acc ++ [item]) (by
        simp only [List.length_append, List.length_singleton]
        simp only [List.length_cons] at hlt
        omega)]
      rw [List.filter_cons, hin]
      simp
    · rw [if_neg h]
      have hin : inRange mn mx item = false := by
        simp only [inRange, decide_eq_false_iff_not]
        exact h
      rw [ih acc (by simp only [List.length_cons] at hlt; omega), List.filter_cons, hin]
      simp

/-- With a positive limit and fewer matches collected than the limit, the
loop returns the accumulated items followed by the first
`limit - acc.length` further matches. -/
theorem filterLoop_take (mn mx : ℚ) (limit : ℕ) :
    ∀ (src acc : List FoodItem), acc.length < limit →
      filterLoop mn mx limit src acc =
        acc ++ (src.filter (inRange mn mx)).take (limit - acc.length) := by
  intro src
  induction src with
  | nil =>
    intro acc _
    simp [filterLoop]
  | cons item rest ih =>
    intro acc hlt
    rw [filterLoop]
    by_cases h : mn ≤ item.weight ∧ item.weight ≤ mx
    · rw [if_pos h]
      have hin : inRange mn mx item = true := by simp [inRange, h]
      by_cases heq : (acc ++ [item]).length = limit
      · rw [if_pos heq]
        simp only [List.length_append, List.length_singleton] at heq
        have hone : limit - acc.length = 1 := by omega
        rw [List.filter_cons, hin, hone]
        simp
      · rw [if_neg heq]
        simp only [List.length_append, List.length_singleton] at heq
        have hlt2 : (acc ++ [item]).length < limit := by
          simp only [List.length_append, List.length_singleton]
          omega
        rw [ih (acc ++ [item]) hlt2]
        simp only [List.length_append, List.length_singleton]
        have hsplit : limit - acc.length = (limit - (acc.length + 1)) + 1 := by omega
        rw [List.filter_cons, hin, hsplit]
        simp [List.take_succ_cons]
    · rw [if_neg h]
      have hin : inRange mn mx item = false := by
        simp only [inRange, decide_eq_false_iff_not]
        exact h
      rw [ih acc hlt, List.filter_cons, hin]
      simp

/-- C6 (counterexample): with maximum output size `N = 0` the filter does
not return the first 0 items: it returns *every* matching item, so the
result can hold more than `N` items. -/
theorem c6_cex :
    filter_food_vector [⟨"a", 1, 1⟩] 0 2 0 = [⟨"a", 1, 1⟩] ∧
      ¬ (filter_food_vector [⟨"a", 1, 1⟩] 0 2 0).length ≤ (0 : ℤ).toNat := by
  constructor <;> decide

/-- C6 (amended): for every *positive* maximum output size `N` (in `int`
range), the filter returns exactly the first `N` in-range items of the
source, in source order — all of them if fewer than `N` exist — and in
particular never more than `N` items.  (For `N ≤ 0` see C10.) -/
theorem c6_filter_first_n (source : List FoodItem) (mn mx : ℚ) (total_size : ℤ)
    (h1 : 0 < total_size) (h2 : total_size < 2 ^ 31) :
    filter_food_vector source mn mx total_size =
        (source.filter (inRange mn mx)).take total_size.toNat ∧
      (filter_food_vector source mn mx total_size).length ≤ total_size.toNat := by
  have hlt64 : total_size < 2 ^ 64 := by
    have : (2 : ℤ) ^ 31 < 2 ^ 64 := by norm_num
    omega
  have hmod : total_size % (2 : ℤ) ^ 64 = total_size :=
    Int.emod_eq_of_lt (le_of_lt h1) hlt64
  have hmain : filter_food_vector source mn mx total_size =
      (source.filter (inRange mn mx)).take total_size.toNat := by
    unfold filter_food_vector
    rw [hmod, filterLoop_take mn mx total_size.toNat source []
      (by simp; omega)]
    simp
  refine ⟨hmain, ?_⟩
  rw [hmain]
  exact le_trans (List.length_take_le _ _) (le_refl _)

/-- C6 (witness): two matching items, limit 1 — only the first is kept. -/
theorem c6_filter_first_n_witness :
    filter_food_vector [⟨"a", 1, 1⟩, ⟨"b", 1, 2⟩] 0 3 1 =
        (List.filter (inRange 0 3) [⟨"a", 1, 1⟩, ⟨"b", 1, 2⟩]).take (1 : ℤ).toNat ∧
      (filter_food_vector [⟨"a", 1, 1⟩, ⟨"b", 1, 2⟩] 0 3 1).length ≤ (1 : ℤ).toNat :=
  c6_filter_first_n [⟨"a", 1, 1⟩, ⟨"b", 1, 2⟩] 0 3 1 (by norm_num) (by norm_num)

/-- C10: a non-positive `total_size` does not yield an empty result: the
size test runs only after an append, so limit `0` is never reached, and a
negative limit is converted to a `size_t` too large to reach; every in-range
item of the source is returned.  (The hypotheses keep `total_size` in `int`
range and the source below the converted negative limit, as any real
`std::vector` is.) -/
theorem c10_nonpositive_limit (source : List FoodItem) (mn mx : ℚ) (total_size : ℤ)
    (h1 : total_size ≤ 0) (h2 : -2 ^ 31 ≤ total_size)
    (h3 : source.length < 2 ^ 63) :
    filter_food_vector source mn mx total_size = source.filter (inRange mn mx) := by
  unfold filter_food_vector
  rcases h1.lt_or_eq with hneg | rfl
  · have hmod : total_size % (2 : ℤ) ^ 64 = total_size + 2 ^ 64 := by
      norm_num at h2 ⊢
      omega
    rw [hmod, filterLoop_limit_large mn mx _ source []
      (by
        simp only [List.length_nil, Nat.zero_add]
        norm_num at h2 h3 ⊢
        omega)]
    simp
  · have hz : ((0 : ℤ) % (2 : ℤ) ^ 64).toNat = 0 := by norm_num
    rw [hz, filterLoop_limit_zero]
    simp

/-- C10 (witness): a negative limit returns every matching item. -/
theorem c10_nonpositive_limit_witness :
    filter_food_vector [⟨"a", 1, 1⟩] 0 2 (-1) =
      List.filter (inRange 0 2) [⟨"a", 1, 1⟩] :=
  c10_nonpositive_limit [⟨"a", 1, 1⟩] 0 2 (-1) (by norm_num) (by norm_num) (by norm_num)

/-! ## Concrete evaluations of the embedding -/
example : getlineFields ("a^b^c") = ["a", "b", "c"] := by decide
example : getlineFields ("a^b^") = ["a", "b"] := by decide
example : getlineFields ("") = [] := by decide
example : getlineFields ("^^") = ["", ""] := by decide
example : parseDouble ("4.5") = some (9 / 2) := by decide
example : parseDouble ("xyz") = none := by decide
example : parseDouble (" -12abc") = some (-12) := by decide
example : truncQ (3 / 2) = 1 := by decide
example : truncQ (-3 / 2) = -1 := by decide
example : dynamic_max_weight [⟨"a", 2, 5⟩] (3 / 2) = some [] := by decide
example : dynamic_max_weight [⟨"a", 2, 5⟩] 2 = some [⟨"a", 2, 5⟩] := by decide
example : dynamic_max_weight [⟨"a", 1, 1⟩, ⟨"b", 1, 1⟩] 2 =
    some [⟨"a", 1, 1⟩, ⟨"b", 1, 1⟩] := by decide
example : dynamic_max_weight [] (-2) = none := by decide
example : exhaustive_max_weight [⟨"a", 95, 4⟩, ⟨"b", 50, 3 / 2⟩, ⟨"c", 150, 6⟩] 150 =
    [⟨"c", 150, 6⟩] := by decide
example : load_food_database ["h", "apple^95^4.0", "junk^xyz^2.0"] = .assertAbort := by decide
example : load_food_database ["h", "bread^100^zz"] = .ok [⟨"bread", 100, 0⟩] := by decide
example : load_food_database ["h", "a^1^1", "x^y"] = .failure := by decide
example : filter_food_vector [⟨"a", 1, 1⟩] 0 2 0 = [⟨"a", 1, 1⟩] := by decide
example : filter_food_vector [⟨"a", 1, 1⟩, ⟨"b", 1, 2⟩] 0 3 1 = [⟨"a", 1, 1⟩] := by decide
